import Mathlib

/-!
Verification development for the magnet–coil flux/voltage simulation kernel of
the ElectroSimulations repository.  The Python kernels are shallowly embedded
over `ℝ`: each Lean definition mirrors one source function; machine floats are
modelled by real numbers, and Python's `%` on nonnegative divisors is modelled
by the mathematical remainder `x - y*⌊x/y⌋`.
-/

open Real

noncomputable section

/-- Angular (circular) distance with wraparound, as in `get_theta_distance`
(src/video_production/video_2/generator.py lines 6–8 and
src/spinning_circle_simulation.py lines 184–188):
`abs_diff = |θ1 − θ2|; return min(abs_diff, 2π − abs_diff)`. -/
def get_theta_distance (theta1 theta2 : ℝ) : ℝ :=
  min |theta1 - theta2| (2 * π - |theta1 - theta2|)

/-- Circle–circle overlap kernel, as in `get_area_between_circle`
(src/video_production/video_2/generator.py lines 11–19 and
src/spinning_circle_simulation.py lines 191–209).  Chord length
`d = 2·orbit_radius·sin(theta_dist/2)`; `0` if `d ≥ 2r`; full disc `πr²`
if `d = 0`; otherwise the two-circle lens area
`2r²·acos(d/(2r)) − 0.5·d·√(4r² − d²)`. -/
def get_area_between_circle (theta_dist orbit_radius r : ℝ) : ℝ :=
  let d := 2 * orbit_radius * Real.sin (theta_dist / 2)
  if d ≥ 2 * r then 0
  else if d = 0 then π * r ^ 2
  else 2 * r ^ 2 * Real.arccos (d / (2 * r)) - 0.5 * d * Real.sqrt (4 * r ^ 2 - d ^ 2)

end

/-- C2 (symmetry half, shared helper): the angular distance is symmetric. -/
theorem get_theta_distance_comm (theta1 theta2 : ℝ) :
    get_theta_distance theta1 theta2 = get_theta_distance theta2 theta1 := by
  unfold get_theta_distance
  rw [abs_sub_comm]

/-- Shared helper: whenever the two angles are within `2π` of each other
(in particular whenever both are normalized into `[0, 2π)`), the angular
distance lies in `[0, π]`. -/
theorem get_theta_distance_mem_Icc {theta1 theta2 : ℝ}
    (h : |theta1 - theta2| ≤ 2 * π) :
    get_theta_distance theta1 theta2 ∈ Set.Icc 0 π := by
  unfold get_theta_distance
  constructor
  · exact le_min (abs_nonneg _) (by linarith)
  · rcases le_or_lt |theta1 - theta2| π with hle | hgt
    · exact le_trans (min_le_left _ _) hle
    · exact le_trans (min_le_right _ _) (by linarith)

/-- C1: for nonnegative magnet radius `r`, with chord length
`d = 2·orbit_radius·sin(θ/2)`, the circle–circle overlap kernel returns `0`
when `d ≥ 2r`, the full disc area `πr²` when `d = 0`, and otherwise the
two-circle lens area `2r²·acos(d/(2r)) − (d/2)·√(4r² − d²)`. -/
theorem C1_get_area_between_circle_cases (orbit_radius theta r : ℝ) (hr : 0 ≤ r) :
    (2 * orbit_radius * Real.sin (theta / 2) ≥ 2 * r →
      get_area_between_circle theta orbit_radius r = 0) ∧
    (2 * orbit_radius * Real.sin (theta / 2) = 0 →
      get_area_between_circle theta orbit_radius r = π * r ^ 2) ∧
    (2 * orbit_radius * Real.sin (theta / 2) ≠ 0 →
      2 * orbit_radius * Real.sin (theta / 2) < 2 * r →
      get_area_between_circle theta orbit_radius r =
        2 * r ^ 2 * Real.arccos (2 * orbit_radius * Real.sin (theta / 2) / (2 * r)) -
          2 * orbit_radius * Real.sin (theta / 2) / 2 *
            Real.sqrt (4 * r ^ 2 - (2 * orbit_radius * Real.sin (theta / 2)) ^ 2)) := by
  refine ⟨fun hd => ?_, fun hd => ?_, fun hd hlt => ?_⟩
  · simp only [get_area_between_circle]
    rw [if_pos hd]
  · rcases eq_or_lt_of_le hr with hr0 | hrpos
    · simp only [get_area_between_circle]
      rw [if_pos (by rw [hd, ← hr0]; norm_num)]
      rw [← hr0]; ring
    · simp only [get_area_between_circle]
      rw [if_neg (by rw [hd]; simp; linarith), if_pos hd]
  · simp only [get_area_between_circle]
    rw [if_neg (not_le.mpr hlt), if_neg hd]
    ring

/-- C1 witness: at `orbit_radius = 1`, `θ = 0`, `r = 1` the chord is `0` and
the kernel returns the full disc area `π`. -/
theorem C1_witness :
    (0 : ℝ) ≤ 1 ∧ get_area_between_circle 0 1 1 = π * 1 ^ 2 :=
  ⟨by norm_num,
    (C1_get_area_between_circle_cases 1 0 1 (by norm_num)).2.1 (by simp)⟩

/-- C2 counterexample: without any normalization precondition the result can
be negative, hence outside `[0, π]`: at `θ1 = 7`, `θ2 = 0` the code returns
`2π − 7 < 0`. -/
theorem C2_counterexample : get_theta_distance 7 0 < 0 := by
  unfold get_theta_distance
  have hpi : π < 3.15 := Real.pi_lt_d2
  have h7 : |(7 : ℝ) - 0| = 7 := by norm_num
  rw [h7]
  have : 2 * π - 7 < 0 := by linarith
  exact lt_of_le_of_lt (min_le_right _ _) this

/-- C2 (amended): the angular distance is symmetric for all real angles, and
its result lies in `[0, π]` provided the two angles differ by at most `2π`
(which holds for the normalized angles the simulation feeds it). -/
theorem C2_get_theta_distance_sym_range (theta1 theta2 : ℝ)
    (h : |theta1 - theta2| ≤ 2 * π) :
    get_theta_distance theta1 theta2 = get_theta_distance theta2 theta1 ∧
    0 ≤ get_theta_distance theta1 theta2 ∧ get_theta_distance theta1 theta2 ≤ π := by
  obtain ⟨h0, h1⟩ := get_theta_distance_mem_Icc h
  exact ⟨get_theta_distance_comm theta1 theta2, h0, h1⟩

noncomputable section

/-- Circular-segment area, as in `circle_segment_area`
(src/video_production/video_1/single_loop.py lines 11–30 and
src/video_production/video_1/verify_flux_values.py lines 4–10): area of the
disc of radius `r` centered at the origin lying to the left of the vertical
line at `x`; `0` for `x ≤ −r`, `πr²` for `x ≥ r`, otherwise cap area
`r²·acos(d/r) − d·√(r² − d²)` at `d = |x|`, complemented when `x > 0`. -/
def circle_segment_area (r x : ℝ) : ℝ :=
  if x ≤ -r then 0
  else if x ≥ r then π * r ^ 2
  else
    let d := |x|
    let cap_area := r ^ 2 * Real.arccos (d / r) - d * Real.sqrt (r ^ 2 - d ^ 2)
    if x > 0 then π * r ^ 2 - cap_area else cap_area

/-- Strip-overlap flux, as in `calculate_exact_flux`
(src/video_production/video_1/single_loop.py lines 32–49): overlap area of the
magnet disc with the coil window `[−coil_width/2, coil_width/2]`, computed as
the difference of two cumulative segment areas at the window edges measured
relative to the magnet center. -/
def calculate_exact_flux (magnet_x coil_width magnet_radius : ℝ) : ℝ :=
  let x_left := -coil_width / 2
  let x_right := coil_width / 2
  circle_segment_area magnet_radius (x_right - magnet_x) -
    circle_segment_area magnet_radius (x_left - magnet_x)

/-- The same strip flux with an arbitrary window `[L, R]` (the code's window
`[−w/2, w/2]`, kept general so monotonicity in each edge can be stated). -/
def window_flux (L R r magnet_x : ℝ) : ℝ :=
  circle_segment_area r (R - magnet_x) - circle_segment_area r (L - magnet_x)

/-- Uniform closed form for the segment area on `[−r, r]`: both branches of
`circle_segment_area` agree with `r²·arccos(−x/r) + x·√(r² − x²)`. -/
def seg_closed_form (r x : ℝ) : ℝ :=
  r ^ 2 * Real.arccos (-x / r) + x * Real.sqrt (r ^ 2 - x ^ 2)

end

theorem seg_closed_form_left {r : ℝ} (hr : 0 < r) : seg_closed_form r (-r) = 0 := by
  unfold seg_closed_form
  rw [neg_neg, div_self hr.ne', Real.arccos_one, neg_sq, sub_self, Real.sqrt_zero]
  ring

theorem seg_closed_form_right {r : ℝ} (hr : 0 < r) : seg_closed_form r r = π * r ^ 2 := by
  unfold seg_closed_form
  rw [neg_div, div_self hr.ne', Real.arccos_neg, Real.arccos_one, sub_self, Real.sqrt_zero]
  ring

theorem circle_segment_area_eq_closed_form {r x : ℝ} (h1 : -r < x) (h2 : x < r) :
    circle_segment_area r x = seg_closed_form r x := by
  unfold circle_segment_area seg_closed_form
  rw [if_neg (not_le.mpr h1), if_neg (not_le.mpr h2)]
  rcases lt_or_le 0 x with hx | hx
  · rw [if_pos hx, abs_of_pos hx]
    rw [show -x / r = -(x / r) by ring, Real.arccos_neg]
    ring
  · rw [if_neg (not_lt.mpr hx), abs_of_nonpos hx, neg_sq, neg_div]
    ring

theorem seg_closed_form_hasDerivAt {r x : ℝ} (hr : 0 < r) (h1 : -r < x) (h2 : x < r) :
    HasDerivAt (seg_closed_form r) (2 * Real.sqrt (r ^ 2 - x ^ 2)) x := by
  have hx2 : x ^ 2 < r ^ 2 := sq_lt_sq' h1 h2
  have hspos : 0 < Real.sqrt (r ^ 2 - x ^ 2) := Real.sqrt_pos.mpr (by linarith)
  have hne1 : -x / r ≠ -1 := by
    rw [Ne, div_eq_iff hr.ne']
    intro h
    exact h2.ne (by linarith)
  have hne2 : -x / r ≠ 1 := by
    rw [Ne, div_eq_iff hr.ne']
    intro h
    exact h1.ne (by linarith)
  have harc := (Real.hasDerivAt_arccos hne1 hne2).comp x
    (((hasDerivAt_id x).neg).div_const r)
  have hinner : HasDerivAt (fun y : ℝ => r ^ 2 - y ^ 2) (-(2 * x)) x := by
    simpa using (hasDerivAt_pow 2 x).const_sub (r ^ 2)
  have hsqrt := (Real.hasDerivAt_sqrt
    (ne_of_gt (by linarith : (0 : ℝ) < r ^ 2 - x ^ 2))).comp x hinner
  have hprod := (hasDerivAt_id x).mul hsqrt
  have htot := (harc.const_mul (r ^ 2)).add hprod
  have hfun : seg_closed_form r =
      fun y => r ^ 2 * (Real.arccos ∘ fun z => -z / r) y +
        id y * ((fun t => Real.sqrt t) ∘ fun z => r ^ 2 - z ^ 2) y := by
    funext y
    simp [seg_closed_form, Function.comp]
  have hsqrtval : Real.sqrt (1 - (-x / r) ^ 2) = Real.sqrt (r ^ 2 - x ^ 2) / r := by
    rw [show (1 : ℝ) - (-x / r) ^ 2 = (r ^ 2 - x ^ 2) / r ^ 2 by field_simp]
    rw [Real.sqrt_div' _ (by positivity), Real.sqrt_sq hr.le]
  have hs2 : Real.sqrt (r ^ 2 - x ^ 2) ^ 2 = r ^ 2 - x ^ 2 :=
    Real.sq_sqrt (by linarith)
  rw [hfun]
  convert htot using 1
  simp only [Function.comp, id]
  rw [hsqrtval]
  field_simp
  linear_combination 2 * r * Real.sqrt (r ^ 2 - x ^ 2) * hs2

theorem seg_closed_form_strictMonoOn {r : ℝ} (hr : 0 < r) :
    StrictMonoOn (seg_closed_form r) (Set.Icc (-r) r) := by
  apply strictMonoOn_of_deriv_pos (convex_Icc _ _)
  · apply ContinuousOn.add
    · exact (continuous_const.mul
        (Real.continuous_arccos.comp (continuous_id.neg.div_const r))).continuousOn
    · exact (continuous_id.mul
        ((continuous_const.sub (continuous_pow 2)).sqrt)).continuousOn
  · intro x hx
    rw [interior_Icc] at hx
    rw [(seg_closed_form_hasDerivAt hr hx.1 hx.2).deriv]
    have hx2 : x ^ 2 < r ^ 2 := sq_lt_sq' hx.1 hx.2
    exact mul_pos two_pos (Real.sqrt_pos.mpr (by linarith))

theorem circle_segment_area_eq_clamp {r : ℝ} (hr : 0 < r) (x : ℝ) :
    circle_segment_area r x = seg_closed_form r (max (-r) (min r x)) := by
  rcases le_or_lt x (-r) with h | h
  · rw [show max (-r) (min r x) = -r from by
      rw [min_eq_right (by linarith), max_eq_left (by linarith)]]
    rw [seg_closed_form_left hr]
    unfold circle_segment_area
    rw [if_pos h]
  · rcases le_or_lt r x with h' | h'
    · rw [show max (-r) (min r x) = r from by
        rw [min_eq_left h', max_eq_right (by linarith)]]
      rw [seg_closed_form_right hr]
      unfold circle_segment_area
      rw [if_neg (not_le.mpr (by linarith)), if_pos h']
    · rw [show max (-r) (min r x) = x from by
        rw [min_eq_right h'.le, max_eq_right h.le]]
      exact circle_segment_area_eq_closed_form h h'

theorem circle_segment_area_monotone {r : ℝ} (hr : 0 < r) :
    Monotone (circle_segment_area r) := by
  intro x1 x2 hx
  rw [circle_segment_area_eq_clamp hr, circle_segment_area_eq_clamp hr]
  have hmem : ∀ y : ℝ, max (-r) (min r y) ∈ Set.Icc (-r) r := fun y =>
    ⟨le_max_left _ _, max_le (by linarith) (min_le_left _ _)⟩
  exact (seg_closed_form_strictMonoOn hr).monotoneOn (hmem x1) (hmem x2)
    (max_le_max le_rfl (min_le_min le_rfl hx))

/-- C3 counterexample: "both window edges at distance ≥ r from the magnet
center" does not force full-disc flux: with the coil window `[−1, 1]` and the
magnet centered at `x = 10` (both edges ≥ 1/2 away), the flux is `0`, not
`π·(1/2)²`. -/
theorem C3_counterexample :
    |(-(2 : ℝ) / 2) - 10| ≥ 1 / 2 ∧ |((2 : ℝ) / 2) - 10| ≥ 1 / 2 ∧
      calculate_exact_flux 10 2 (1 / 2) = 0 ∧
      calculate_exact_flux 10 2 (1 / 2) ≠ π * (1 / 2) ^ 2 := by
  have hπ := Real.pi_pos
  have hval : calculate_exact_flux 10 2 (1 / 2) = 0 := by
    unfold calculate_exact_flux circle_segment_area
    norm_num
  refine ⟨by norm_num, by norm_num, hval, ?_⟩
  rw [hval]
  intro h
  nlinarith

/-- C3 (amended): for every magnet radius `r > 0` the strip-overlap flux is
monotonically non-decreasing as the window widens — non-decreasing in the
right edge and non-increasing in the left edge — and equals the full disc
area `πr²` whenever the window contains the disc (left edge ≤ center − r and
right edge ≥ center + r); `calculate_exact_flux` is the window flux at the
window `[−w/2, w/2]`, and for a magnet of radius 0.5 centered in the coil
window `[0.5, 2.5]` the flux equals `π·0.25`. -/
theorem C3_strip_flux_window_monotone :
    (∀ r L R1 R2 mx : ℝ, 0 < r → R1 ≤ R2 →
      window_flux L R1 r mx ≤ window_flux L R2 r mx) ∧
    (∀ r L1 L2 R mx : ℝ, 0 < r → L1 ≤ L2 →
      window_flux L2 R r mx ≤ window_flux L1 R r mx) ∧
    (∀ r L R mx : ℝ, 0 < r → L ≤ mx - r → mx + r ≤ R →
      window_flux L R r mx = π * r ^ 2) ∧
    (∀ mx w r : ℝ, calculate_exact_flux mx w r = window_flux (-w / 2) (w / 2) r mx) ∧
    window_flux (1 / 2) (5 / 2) (1 / 2) (3 / 2) = π * (1 / 2) ^ 2 := by
  have hfull : ∀ r L R mx : ℝ, 0 < r → L ≤ mx - r → mx + r ≤ R →
      window_flux L R r mx = π * r ^ 2 := by
    intro r L R mx hr hL hR
    unfold window_flux
    have hright : circle_segment_area r (R - mx) = π * r ^ 2 := by
      unfold circle_segment_area
      rw [if_neg (not_le.mpr (by linarith)), if_pos (by linarith)]
    have hleft : circle_segment_area r (L - mx) = 0 := by
      unfold circle_segment_area
      rw [if_pos (by linarith)]
    rw [hright, hleft]
    ring
  refine ⟨?_, ?_, hfull, fun mx w r => rfl, ?_⟩
  · intro r L R1 R2 mx hr hR
    unfold window_flux
    have := circle_segment_area_monotone hr (sub_le_sub_right hR mx)
    linarith
  · intro r L1 L2 R mx hr hL
    unfold window_flux
    have := circle_segment_area_monotone hr (sub_le_sub_right hL mx)
    linarith
  · have := hfull (1 / 2) (1 / 2) (5 / 2) (3 / 2) (by norm_num) (by norm_num) (by norm_num)
    simpa using this

/-- C3 witness: widening the right edge of the window from 2 to 3 does not
decrease the flux of a unit-radius magnet. -/
theorem C3_witness :
    (0 : ℝ) < 1 ∧ window_flux 0 2 1 0 ≤ window_flux 0 3 1 0 :=
  ⟨by norm_num, C3_strip_flux_window_monotone.1 1 0 2 3 0 (by norm_num) (by norm_num)⟩

/-- C2 witness: at `θ1 = 0`, `θ2 = 1` the hypothesis `|θ1 − θ2| ≤ 2π` holds
and the distance is symmetric and in `[0, π]`. -/
theorem C2_witness :
    |(0 : ℝ) - 1| ≤ 2 * π ∧
      (get_theta_distance 0 1 = get_theta_distance 1 0 ∧
        0 ≤ get_theta_distance 0 1 ∧ get_theta_distance 0 1 ≤ π) := by
  have h : |(0 : ℝ) - 1| ≤ 2 * π := by
    have := Real.pi_gt_three
    rw [show |(0 : ℝ) - 1| = 1 by norm_num]
    linarith
  exact ⟨h, C2_get_theta_distance_sym_range 0 1 h⟩

noncomputable section

/-- Backward-difference voltage extraction, as in `calculate_physics_data`
(src/video_production/video_2/generator.py lines 124–132): the first sample is
`0`, every later sample `i` is `(flux[i] − flux[i−1]) / dt` on the (smoothed)
flux series, modelled here as a function of the step index. -/
def voltage_data (flux : ℕ → ℝ) (dt : ℝ) (step : ℕ) : ℝ :=
  if step > 0 then (flux step - flux (step - 1)) / dt else 0

/-- Python's `%` for a positive real divisor: `x - y·⌊x/y⌋` (the remainder
with the sign of the divisor, which is what `(angle) % (2*math.pi)` computes
on floats). -/
def pymod (x y : ℝ) : ℝ := x - y * ⌊x / y⌋

/-- Linear interpolation into the lookup table, the tail of
`get_smoothed_flux_at_angle` (src/video_production/video_2/scene_phase_static.py
lines 97–108): `idx_low = int(fractional_idx) % lookup_steps`,
`idx_high = (idx_low + 1) % lookup_steps`,
`alpha = fractional_idx - int(fractional_idx)`, then
`flux_low + alpha*(flux_high - flux_low)`.  Python's `int()` truncation agrees
with `⌊·⌋` on the nonnegative fractional indices produced by the caller. -/
def interp_query (table : ℕ → ℝ) (lookup_steps : ℕ) (fractional_idx : ℝ) : ℝ :=
  let idx_low := (⌊fractional_idx⌋).toNat % lookup_steps
  let idx_high := (idx_low + 1) % lookup_steps
  let alpha := fractional_idx - ⌊fractional_idx⌋
  table idx_low + alpha * (table idx_high - table idx_low)

/-- The lookup-table query, as in `get_smoothed_flux_at_angle`
(src/video_production/video_2/scene_phase_static.py lines 97–108):
`effective_time = t - (π/2 - coil_angle)/ROTATION_SPEED`,
`phase = (effective_time*ROTATION_SPEED) % (2π)`,
`fractional_idx = phase/(2π) * lookup_steps`, then linear interpolation. -/
def get_smoothed_flux_at_angle (table : ℕ → ℝ) (lookup_steps : ℕ)
    (rotation_speed t coil_angle : ℝ) : ℝ :=
  let effective_time := t - (π / 2 - coil_angle) / rotation_speed
  let phase := pymod (effective_time * rotation_speed) (2 * π)
  interp_query table lookup_steps (phase / (2 * π) * lookup_steps)

/-- Signed flux contribution of one magnet `(start_angle, is_north)` at time
`t`, as in the aggregation loop of `calculate_physics_data`
(src/video_production/video_2/generator.py lines 92–103) and
`calculate_flux_at_instant` (src/video_production/video_2/scene_phase_static.py
lines 66–80): the magnet's current angle is `(start + (−speed·t)) % 2π`, the
overlap area is taken through the orbit kernel, and the polarity decides the
sign. -/
def magnet_flux_term (coil_theta magnet_path_radius magnet_radius rotation_speed t : ℝ)
    (m : ℝ × Bool) : ℝ :=
  let current_mag_angle := pymod (m.1 + -rotation_speed * t) (2 * π)
  let theta_dist := get_theta_distance coil_theta current_mag_angle
  let area := get_area_between_circle theta_dist magnet_path_radius magnet_radius
  if m.2 then area else -area

/-- Total flux over all magnets at one instant (the signed sum of
`calculate_physics_data` / `calculate_flux_at_instant`). -/
def calculate_flux_at_instant
    (coil_theta magnet_path_radius magnet_radius rotation_speed t : ℝ)
    (magnets : List (ℝ × Bool)) : ℝ :=
  (magnets.map (magnet_flux_term coil_theta magnet_path_radius magnet_radius
    rotation_speed t)).sum

end

/-- C4: with `voltage_data 0 = 0` and `voltage_data i = (flux i − flux (i−1))/dt`
for `i > 0` (backward difference on the smoothed flux), the discrete integral
`∑ voltage_data i · dt` over all `N` samples telescopes exactly to
`flux (N−1) − flux 0`. -/
theorem C4_voltage_integral_telescopes (flux : ℕ → ℝ) (dt : ℝ) (N : ℕ)
    (hN : 1 ≤ N) (hdt : dt ≠ 0) :
    ∑ i ∈ Finset.range N, voltage_data flux dt i * dt = flux (N - 1) - flux 0 := by
  induction N with
  | zero => omega
  | succ M ih =>
    rcases Nat.lt_or_ge M 1 with h1 | h1
    · have hM : M = 0 := by omega
      subst hM
      simp [voltage_data]
    · rw [Finset.sum_range_succ, ih h1]
      have hv : voltage_data flux dt M = (flux M - flux (M - 1)) / dt := by
        unfold voltage_data
        rw [if_pos (by omega)]
      rw [hv, div_mul_cancel₀ _ hdt, Nat.add_sub_cancel]
      ring

/-- C4 witness: for the concrete series `flux n = n²`, `dt = 1`, `N = 3` the
discrete voltage integral equals `flux 2 − flux 0 = 4`. -/
theorem C4_witness :
    (1 ≤ 3 ∧ (1 : ℝ) ≠ 0) ∧
      ∑ i ∈ Finset.range 3, voltage_data (fun n => (n : ℝ) ^ 2) 1 i * 1 =
        (fun n : ℕ => (n : ℝ) ^ 2) (3 - 1) - (fun n : ℕ => (n : ℝ) ^ 2) 0 :=
  ⟨⟨by norm_num, by norm_num⟩,
    C4_voltage_integral_telescopes (fun n => (n : ℝ) ^ 2) 1 3 (by norm_num) (by norm_num)⟩

/-- C5: the interpolating lookup query returns the stored sample exactly when
the fractional index is an integer `k`, and the arithmetic mean of the two
adjacent samples when the fractional index is exactly `k + 1/2`. -/
theorem C5_lookup_interpolation (table : ℕ → ℝ) (N : ℕ) (rs t ca : ℝ)
    (k : ℕ) (hk : k < N) :
    (pymod ((t - (π / 2 - ca) / rs) * rs) (2 * π) / (2 * π) * N = (k : ℝ) →
      get_smoothed_flux_at_angle table N rs t ca = table k) ∧
    (pymod ((t - (π / 2 - ca) / rs) * rs) (2 * π) / (2 * π) * N = (k : ℝ) + 1 / 2 →
      get_smoothed_flux_at_angle table N rs t ca =
        (table k + table ((k + 1) % N)) / 2) := by
  constructor
  · intro h
    simp only [get_smoothed_flux_at_angle]
    rw [h]
    simp only [interp_query]
    rw [Int.floor_natCast, Int.toNat_natCast, Nat.mod_eq_of_lt hk]
    simp
  · intro h
    simp only [get_smoothed_flux_at_angle]
    rw [h]
    simp only [interp_query]
    have hfl : ⌊(k : ℝ) + 1 / 2⌋ = (k : ℤ) :=
      Int.floor_eq_iff.mpr ⟨by push_cast; linarith, by push_cast; linarith⟩
    rw [hfl, Int.toNat_natCast, Nat.mod_eq_of_lt hk]
    push_cast
    ring

/-- C5 witness: with the constant table `7`, `N = 4`, rotation speed `1`,
`t = 0` and coil angle `π/2`, the fractional index is the integer `0` and the
query returns the stored sample `7`. -/
theorem C5_witness :
    0 < 4 ∧ get_smoothed_flux_at_angle (fun _ => (7 : ℝ)) 4 1 0 (π / 2) = 7 :=
  ⟨by norm_num,
    (C5_lookup_interpolation (fun _ => (7 : ℝ)) 4 1 0 (π / 2) 0 (by norm_num)).1
      (by simp [pymod])⟩

noncomputable section

/-- Angular width occupied by one magnet on its path, as in
`THETA_PER_MAGNET = 2*asin(MAGNET_DIAMETER/(2*MAGNET_PATH_RADIUS))`
(src/spinning_circle_simulation.py line 179). -/
def THETA_PER_MAGNET (magnet_diameter magnet_path_radius : ℝ) : ℝ :=
  2 * Real.arcsin (magnet_diameter / (2 * magnet_path_radius))

/-- One aggregation step of the orbit kernel WITH the angular filter, as in
the per-coil loop of src/spinning_circle_simulation.py lines 230–257: a magnet
only contributes when `get_theta_distance(coil.theta, magnet.theta) <
THETA_PER_MAGNET`; the contribution is the signed overlap area.  Each list
element is a magnet's current `(theta, north_pole)`. -/
def total_flux_filtered (coil_theta magnet_path_radius magnet_radius : ℝ)
    (magnets : List (ℝ × Bool)) : ℝ :=
  (magnets.map (fun m =>
    if get_theta_distance coil_theta m.1 <
        THETA_PER_MAGNET (2 * magnet_radius) magnet_path_radius then
      let overlap_area := get_area_between_circle
        (get_theta_distance coil_theta m.1) magnet_path_radius magnet_radius
      if m.2 then overlap_area else -overlap_area
    else 0)).sum

/-- The same aggregation WITHOUT the filter, as in `calculate_physics_data`
(src/video_production/video_2/generator.py lines 89–105), which sums every
magnet's signed overlap contribution. -/
def total_flux_unfiltered (coil_theta magnet_path_radius magnet_radius : ℝ)
    (magnets : List (ℝ × Bool)) : ℝ :=
  (magnets.map (fun m =>
    let area := get_area_between_circle
      (get_theta_distance coil_theta m.1) magnet_path_radius magnet_radius
    if m.2 then area else -area)).sum

/-- Single-magnet strip flux, as in `calculate_single_magnet_flux`
(src/video_production/video_1/verify_flux_values.py lines 12–18). -/
def calculate_single_magnet_flux
    (magnet_center_x coil_width magnet_radius b_field_strength : ℝ) : ℝ :=
  let x_left_coil := -coil_width / 2
  let x_right_coil := coil_width / 2
  let rel_x_left := x_left_coil - magnet_center_x
  let rel_x_right := x_right_coil - magnet_center_x
  b_field_strength * (circle_segment_area magnet_radius rel_x_right -
    circle_segment_area magnet_radius rel_x_left)

/-- Strip-kernel total flux with the center-distance cutoff, as in
`calculate_total_flux` (src/video_production/video_1/verify_flux_values.py
lines 20–26): a magnet is only summed when
`|center_x| < coil_width/2 + magnet_radius + 0.1`. -/
def calculate_total_flux (magnet_centers : List ℝ)
    (coil_width magnet_radius b_field_strength : ℝ) : ℝ :=
  (magnet_centers.map (fun center_x =>
    if |center_x| < coil_width / 2 + magnet_radius + 0.1 then
      calculate_single_magnet_flux center_x coil_width magnet_radius b_field_strength
    else 0)).sum

end

/-- Shared helper: a magnet at angular distance at least `THETA_PER_MAGNET`
from the coil has overlap area exactly `0` (the chord is then at least one
magnet diameter). -/
theorem get_area_between_circle_eq_zero_of_far
    {R r theta_dist : ℝ} (hR : 0 < R) (hr : 0 ≤ r) (hrR : r ≤ R)
    (hθ0 : 0 ≤ theta_dist) (hθπ : theta_dist ≤ π)
    (hskip : THETA_PER_MAGNET (2 * r) R ≤ theta_dist) :
    get_area_between_circle theta_dist R r = 0 := by
  have harg : (2 * r) / (2 * R) = r / R := mul_div_mul_left r R two_ne_zero
  have h01 : 0 ≤ r / R := div_nonneg hr hR.le
  have h11 : r / R ≤ 1 := (div_le_one hR).mpr hrR
  have harcsin_le : Real.arcsin (r / R) ≤ theta_dist / 2 := by
    unfold THETA_PER_MAGNET at hskip
    rw [harg] at hskip
    linarith
  have hsin : r / R ≤ Real.sin (theta_dist / 2) := by
    have hmono := Real.strictMonoOn_sin.monotoneOn
      (a := Real.arcsin (r / R)) (b := theta_dist / 2)
    have h1 : Real.arcsin (r / R) ∈ Set.Icc (-(π / 2)) (π / 2) :=
      ⟨Real.neg_pi_div_two_le_arcsin _, Real.arcsin_le_pi_div_two _⟩
    have h2 : theta_dist / 2 ∈ Set.Icc (-(π / 2)) (π / 2) := by
      constructor <;> [linarith [Real.pi_pos]; linarith]
    have := hmono h1 h2 harcsin_le
    rwa [Real.sin_arcsin (by linarith) h11] at this
  have hd : 2 * R * Real.sin (theta_dist / 2) ≥ 2 * r := by
    have hmul := mul_le_mul_of_nonneg_left hsin (by linarith : (0 : ℝ) ≤ 2 * R)
    have h2r : 2 * R * (r / R) = 2 * r := by
      rw [mul_assoc, mul_comm R (r / R), div_mul_cancel₀ _ hR.ne']
    rw [h2r] at hmul
    exact hmul
  simp only [get_area_between_circle]
  rw [if_pos hd]

/-- Shared helper: a magnet whose center is at least
`coil_width/2 + magnet_radius + 0.1` from the coil center has strip flux
exactly `0` (the disc lies wholly on one side of the window). -/
theorem calculate_single_magnet_flux_eq_zero_of_far
    {cx w r b : ℝ} (hw : 0 ≤ w) (hr : 0 ≤ r)
    (hskip : w / 2 + r + 0.1 ≤ |cx|) :
    calculate_single_magnet_flux cx w r b = 0 := by
  simp only [calculate_single_magnet_flux]
  rcases le_abs.mp hskip with h | h
  · have hleft : circle_segment_area r (-w / 2 - cx) = 0 := by
      unfold circle_segment_area
      rw [if_pos (by norm_num at h ⊢; linarith)]
    have hright : circle_segment_area r (w / 2 - cx) = 0 := by
      unfold circle_segment_area
      rw [if_pos (by norm_num at h ⊢; linarith)]
    rw [hleft, hright]
    ring
  · have hleft : circle_segment_area r (-w / 2 - cx) = π * r ^ 2 := by
      unfold circle_segment_area
      rw [if_neg (by norm_num at h ⊢; linarith), if_pos (by norm_num at h ⊢; linarith)]
    have hright : circle_segment_area r (w / 2 - cx) = π * r ^ 2 := by
      unfold circle_segment_area
      rw [if_neg (by norm_num at h ⊢; linarith), if_pos (by norm_num at h ⊢; linarith)]
    rw [hleft, hright]
    ring

/-- C6: the skip cutoffs are pure optimizations.  Orbit kernel: filtering out
magnets at angular distance ≥ `THETA_PER_MAGNET` leaves the total unchanged
(for validated geometry `0 < R`, `0 ≤ r ≤ R` and normalized angles).  Strip
kernel: filtering out magnets at center distance ≥ `w/2 + r + 0.1` equals the
unfiltered sum over every magnet. -/
theorem C6_skip_cutoff_pure_optimization :
    (∀ (coil_theta R r : ℝ) (magnets : List (ℝ × Bool)),
      0 < R → 0 ≤ r → r ≤ R →
      (∀ m ∈ magnets, |coil_theta - m.1| ≤ 2 * π) →
      total_flux_filtered coil_theta R r magnets =
        total_flux_unfiltered coil_theta R r magnets) ∧
    (∀ (centers : List ℝ) (w r b : ℝ), 0 ≤ w → 0 ≤ r →
      calculate_total_flux centers w r b =
        (centers.map (fun cx => calculate_single_magnet_flux cx w r b)).sum) := by
  constructor
  · intro coil_theta R r magnets hR hr hrR hangles
    unfold total_flux_filtered total_flux_unfiltered
    congr 1
    apply List.map_congr_left
    intro m hm
    by_cases hfilter : get_theta_distance coil_theta m.1 <
        THETA_PER_MAGNET (2 * r) R
    · rw [if_pos hfilter]
    · rw [if_neg hfilter]
      obtain ⟨hθ0, hθπ⟩ := get_theta_distance_mem_Icc (hangles m hm)
      rw [get_area_between_circle_eq_zero_of_far hR hr hrR hθ0 hθπ
        (not_lt.mp hfilter)]
      rcases m.2 with _ | _ <;> simp
  · intro centers w r b hw hr
    unfold calculate_total_flux
    congr 1
    apply List.map_congr_left
    intro cx _
    by_cases hfilter : |cx| < w / 2 + r + 0.1
    · rw [if_pos hfilter]
    · rw [if_neg hfilter,
        calculate_single_magnet_flux_eq_zero_of_far hw hr (not_lt.mp hfilter)]

/-- C6 witness: at a concrete validated configuration (one magnet at the coil
angle, `R = 1`, `r = 1/2`) the filtered and unfiltered orbit sums agree. -/
theorem C6_witness :
    ((0 : ℝ) < 1 ∧ (0 : ℝ) ≤ 1 / 2 ∧ (1 / 2 : ℝ) ≤ 1) ∧
      total_flux_filtered 0 1 (1 / 2) [(0, true)] =
        total_flux_unfiltered 0 1 (1 / 2) [(0, true)] :=
  ⟨⟨by norm_num, by norm_num, by norm_num⟩,
    C6_skip_cutoff_pure_optimization.1 0 1 (1 / 2) [(0, true)]
      (by norm_num) (by norm_num) (by norm_num)
      (by
        intro m hm
        rw [List.mem_singleton] at hm
        subst hm
        norm_num
        positivity)⟩

noncomputable section

/-- Per-magnet contribution of the localized sinusoidal (raised-cosine)
kernel, as in `calculate_voltage_trace_custom`
(src/video_production/video_2/scene_single_coil_4mag.py lines 84–104): `0`
when `|angle_diff| ≥ influence_width` (the `continue`), otherwise
`amplitude * 0.5 * (1 + cos(π*angle_diff/influence_width))`;
`angle_diff` is the coil–magnet angle difference normalized to `[-π, π]`. -/
def raised_cosine_contribution (amplitude influence_width angle_diff : ℝ) : ℝ :=
  if |angle_diff| < influence_width then
    amplitude * 0.5 * (1 + Real.cos (π * angle_diff / influence_width))
  else 0

/-- The polarity-signed aggregation step for the sinusoidal kernel: the
contribution is added for North and subtracted for South (same lines of
`calculate_voltage_trace_custom`). -/
def sinusoidal_flux_term (amplitude influence_width angle_diff : ℝ)
    (is_north : Bool) : ℝ :=
  if is_north then raised_cosine_contribution amplitude influence_width angle_diff
  else -raised_cosine_contribution amplitude influence_width angle_diff

end

/-- Shared helper: the raised-cosine formula vanishes at the window
boundary `|Δθ| = W`. -/
theorem raised_cosine_boundary {A W dθ : ℝ} (hW : 0 < W) (h : |dθ| = W) :
    A * 0.5 * (1 + Real.cos (π * dθ / W)) = 0 := by
  rcases abs_eq hW.le |>.mp h with h' | h'
  · subst h'
    rw [mul_div_assoc, div_self hW.ne', mul_one, Real.cos_pi]
    ring
  · subst h'
    rw [show π * -W / W = -π by field_simp, Real.cos_neg, Real.cos_pi]
    ring

/-- C7: the localized sinusoidal kernel contributes
`A·0.5·(1 + cos(π·Δθ/W))` when `|Δθ| < W` and exactly `0` otherwise; the
raised-cosine formula evaluates to `0` at `|Δθ| = W`, so the contribution is a
continuous function of `Δθ`; the aggregated term is the contribution signed by
polarity. -/
theorem C7_raised_cosine_kernel (A W dθ : ℝ) (hW : 0 < W) :
    (|dθ| < W → raised_cosine_contribution A W dθ =
      A * 0.5 * (1 + Real.cos (π * dθ / W))) ∧
    (W ≤ |dθ| → raised_cosine_contribution A W dθ = 0) ∧
    (|dθ| = W → A * 0.5 * (1 + Real.cos (π * dθ / W)) = 0) ∧
    Continuous (raised_cosine_contribution A W) ∧
    sinusoidal_flux_term A W dθ true = raised_cosine_contribution A W dθ ∧
    sinusoidal_flux_term A W dθ false = -raised_cosine_contribution A W dθ := by
  refine ⟨fun h => ?_, fun h => ?_, fun h => raised_cosine_boundary hW h, ?_, rfl, rfl⟩
  · unfold raised_cosine_contribution
    rw [if_pos h]
  · unfold raised_cosine_contribution
    rw [if_neg (not_lt.mpr h)]
  · have hset : {x : ℝ | |x| < W} = Metric.ball 0 W := by
      ext x
      simp [Real.dist_eq]
    have hcont : Continuous fun dθ : ℝ =>
        A * 0.5 * (1 + Real.cos (π * dθ / W)) := by
      continuity
    show Continuous fun dθ : ℝ =>
      if |dθ| < W then A * 0.5 * (1 + Real.cos (π * dθ / W)) else 0
    apply Continuous.if _ hcont continuous_const
    intro a ha
    rw [hset, frontier_ball 0 hW.ne'] at ha
    have habs : |a| = W := by
      simpa [Real.dist_eq] using ha
    simpa using raised_cosine_boundary hW habs

/-- C7 witness: at `A = 1`, `W = 1`, `Δθ = 1` the magnet is at the window
boundary and contributes `0`. -/
theorem C7_witness :
    (0 : ℝ) < 1 ∧ raised_cosine_contribution 1 1 1 = 0 :=
  ⟨by norm_num, (C7_raised_cosine_kernel 1 1 1 (by norm_num)).2.1 (by norm_num)⟩

noncomputable section

/-- Python's `int()` on a float: truncation toward zero. -/
def pytrunc (x : ℝ) : ℤ := if 0 ≤ x then ⌊x⌋ else ⌈x⌉

/-- Configuration validation, as in `check_valid_constants`
(src/video_production/video_2/generator.py lines 22–47 and
src/spinning_circle_simulation.py lines 22–52).  The source prints an error
and calls `exit(1)` on each of the three geometric-infeasibility conditions;
that refusal is modelled as `some false`, a normal return as `some true`, and
an uncaught exception as `none`: `math.asin` raises `ValueError` when its
argument is outside `[-1, 1]`, and `(2*math.pi)/theta_per_magnet` raises
`ZeroDivisionError` when `theta_per_magnet == 0.0`.  `int()` is modelled by
`pytrunc` (truncation toward zero). -/
def check_valid_constants
    (disk_radius magnet_radius offset_from_edge magnet_path_radius : ℝ)
    (num_magnets : ℕ) : Option Bool :=
  let magnet_diameter := magnet_radius * 2
  if magnet_diameter > disk_radius then some false
  else if magnet_diameter + offset_from_edge > disk_radius then some false
  else
    let asin_arg := magnet_diameter / (2 * magnet_path_radius)
    if -1 ≤ asin_arg ∧ asin_arg ≤ 1 then
      let theta_per_magnet := 2 * Real.arcsin asin_arg
      if theta_per_magnet = 0 then none
      else
        let max_possible_magnet := pytrunc ((2 * π) / theta_per_magnet)
        if (num_magnets : ℤ) > max_possible_magnet then some false else some true
    else none

/-- Error-aware circle–circle overlap kernel: identical to
`get_area_between_circle` except that it returns `none` exactly where the
Python code would raise — `math.acos` on an argument outside `[-1, 1]` or
`math.sqrt` on a negative argument. -/
def get_area_between_circle_checked (theta_dist orbit_radius r : ℝ) : Option ℝ :=
  let d := 2 * orbit_radius * Real.sin (theta_dist / 2)
  if d ≥ 2 * r then some 0
  else if d = 0 then some (π * r ^ 2)
  else if -1 ≤ d / (2 * r) ∧ d / (2 * r) ≤ 1 then
    if 0 ≤ 4 * r ^ 2 - d ^ 2 then
      some (2 * r ^ 2 * Real.arccos (d / (2 * r)) -
        0.5 * d * Real.sqrt (4 * r ^ 2 - d ^ 2))
    else none
  else none

/-- Error-aware signed per-magnet term of the aggregation loop (same shape as
`magnet_flux_term`). -/
def magnet_flux_term_checked
    (coil_theta magnet_path_radius magnet_radius rotation_speed t : ℝ)
    (m : ℝ × Bool) : Option ℝ :=
  let current_mag_angle := pymod (m.1 + -rotation_speed * t) (2 * π)
  let theta_dist := get_theta_distance coil_theta current_mag_angle
  (get_area_between_circle_checked theta_dist magnet_path_radius magnet_radius).map
    (fun area => if m.2 then area else -area)

/-- Error-aware per-time-step total flux (same shape as
`calculate_flux_at_instant`): `none` as soon as any magnet's term raises. -/
def calculate_flux_at_instant_checked
    (coil_theta magnet_path_radius magnet_radius rotation_speed t : ℝ)
    (magnets : List (ℝ × Bool)) : Option ℝ :=
  (magnets.mapM (magnet_flux_term_checked coil_theta magnet_path_radius
    magnet_radius rotation_speed t)).map List.sum

end

/-- Shared helper: for a positive divisor, `pymod` lands in `[0, y)` — the
range of Python's float `%`. -/
theorem pymod_mem_Ico {y : ℝ} (hy : 0 < y) (x : ℝ) :
    0 ≤ pymod x y ∧ pymod x y < y := by
  unfold pymod
  have hfl : y * ⌊x / y⌋ ≤ y * (x / y) :=
    mul_le_mul_of_nonneg_left (Int.floor_le (x / y)) hy.le
  have hlt : y * (x / y) < y * (⌊x / y⌋ + 1) :=
    (mul_lt_mul_left hy).mpr (Int.lt_floor_add_one (x / y))
  have hxy : y * (x / y) = x := by
    field_simp
  rw [hxy] at hfl hlt
  constructor <;> [linarith; linarith]

/-- Shared helper: the error-aware kernel never fails on the angular
distances the simulation produces (nonnegative orbit radius and
`theta_dist ∈ [0, 2π]`), and agrees with the plain kernel. -/
theorem get_area_between_circle_checked_eq_some
    {theta_dist orbit_radius r : ℝ} (hR : 0 ≤ orbit_radius)
    (hθ0 : 0 ≤ theta_dist) (hθ : theta_dist ≤ 2 * π) :
    get_area_between_circle_checked theta_dist orbit_radius r =
      some (get_area_between_circle theta_dist orbit_radius r) := by
  have hsin : 0 ≤ Real.sin (theta_dist / 2) :=
    Real.sin_nonneg_of_nonneg_of_le_pi (by linarith) (by linarith)
  have hd0 : 0 ≤ 2 * orbit_radius * Real.sin (theta_dist / 2) := by positivity
  simp only [get_area_between_circle_checked, get_area_between_circle]
  by_cases h1 : 2 * orbit_radius * Real.sin (theta_dist / 2) ≥ 2 * r
  · rw [if_pos h1, if_pos h1]
  · rw [if_neg h1, if_neg h1]
    by_cases h2 : 2 * orbit_radius * Real.sin (theta_dist / 2) = 0
    · rw [if_pos h2, if_pos h2]
    · rw [if_neg h2, if_neg h2]
      have hdpos : 0 < 2 * orbit_radius * Real.sin (theta_dist / 2) :=
        lt_of_le_of_ne hd0 (Ne.symm h2)
      have hdlt : 2 * orbit_radius * Real.sin (theta_dist / 2) < 2 * r :=
        not_le.mp h1
      have hrpos : 0 < r := by linarith
      have hdiv0 : (0 : ℝ) ≤ 2 * orbit_radius * Real.sin (theta_dist / 2) / (2 * r) :=
        div_nonneg hd0 (by linarith)
      rw [if_pos ⟨by linarith, by
        rw [div_le_one (by linarith)]
        linarith⟩, if_pos (by nlinarith)]

/-- Shared helper: every per-magnet term of the aggregation loop is total:
the checked term equals `some` of the plain term, for any start angle, any
time and any coil angle in `[0, 2π]`. -/
theorem magnet_flux_term_checked_eq_some
    {coil_theta : ℝ} (magnet_path_radius magnet_radius rotation_speed t : ℝ)
    (hR : 0 ≤ magnet_path_radius)
    (hc0 : 0 ≤ coil_theta) (hc2 : coil_theta ≤ 2 * π) (m : ℝ × Bool) :
    magnet_flux_term_checked coil_theta magnet_path_radius magnet_radius
        rotation_speed t m =
      some (magnet_flux_term coil_theta magnet_path_radius magnet_radius
        rotation_speed t m) := by
  simp only [magnet_flux_term_checked, magnet_flux_term]
  obtain ⟨hm0, hm2⟩ := pymod_mem_Ico (by positivity : (0 : ℝ) < 2 * π)
    (m.1 + -rotation_speed * t)
  have habs : |coil_theta - pymod (m.1 + -rotation_speed * t) (2 * π)| ≤ 2 * π :=
    abs_le.mpr ⟨by linarith, by linarith⟩
  obtain ⟨hθ0, hθπ⟩ := get_theta_distance_mem_Icc habs
  rw [get_area_between_circle_checked_eq_some hR hθ0
    (by linarith [Real.pi_pos] : get_theta_distance coil_theta
      (pymod (m.1 + -rotation_speed * t) (2 * π)) ≤ 2 * π)]
  rfl

/-- Shared helper: Python's `int()` agrees with `⌊·⌋` on nonnegative
floats. -/
theorem pytrunc_eq_floor {x : ℝ} (hx : 0 ≤ x) : pytrunc x = ⌊x⌋ := if_pos hx

/-- C8 counterexample: at disk radius 10, magnet radius 1, edge offset 0,
path radius 1/2 (magnet count 2), the first two checks pass but
`math.asin(2.0)` raises `ValueError` (modelled `none`): the validation
neither returns normally nor refuses through one of the three
geometric-infeasibility conditions — the first two conditions are false and
the third, `⌊2π/(2·asin(2))⌋`, is not even defined. -/
theorem C8_counterexample :
    check_valid_constants 10 1 0 (1 / 2) 2 = none ∧
      ¬((1 : ℝ) * 2 > 10) ∧ ¬((1 : ℝ) * 2 + 0 > 10) := by
  refine ⟨?_, by norm_num, by norm_num⟩
  simp only [check_valid_constants]
  norm_num

/-- C8 (amended): provided the magnet fits on its path
(`0 < magnet_radius ≤ magnet_path_radius`, which holds at every call site,
where `path = disk − offset − radius` makes the second check imply it),
`check_valid_constants` never raises, and it refuses (returns `some false`,
the model of the source's `exit(1)`) iff one of the three
geometric-infeasibility conditions holds — magnet diameter exceeds the disk
radius, magnet diameter plus edge offset exceeds the disk radius, or the
magnet count exceeds `⌊2π / (2·asin(diameter/(2·path_radius)))⌋`; and for
every configuration, at every time `t`, the per-time-step flux evaluation is
total: the error-aware evaluation returns `some` of the plain result and
never hits a domain error. -/
theorem C8_validation_and_totality
    (disk_radius magnet_radius offset_from_edge magnet_path_radius : ℝ)
    (num_magnets : ℕ) (coil_theta rotation_speed t : ℝ)
    (magnets : List (ℝ × Bool))
    (hr : 0 < magnet_radius) (hR : 0 < magnet_path_radius)
    (hrR : magnet_radius ≤ magnet_path_radius)
    (hc0 : 0 ≤ coil_theta) (hc2 : coil_theta ≤ 2 * π) :
    (∃ b : Bool, check_valid_constants disk_radius magnet_radius offset_from_edge
        magnet_path_radius num_magnets = some b) ∧
    (check_valid_constants disk_radius magnet_radius offset_from_edge
        magnet_path_radius num_magnets = some false ↔
      (magnet_radius * 2 > disk_radius ∨
        magnet_radius * 2 + offset_from_edge > disk_radius ∨
        (num_magnets : ℤ) >
          ⌊(2 * π) / (2 * Real.arcsin (magnet_radius * 2 /
            (2 * magnet_path_radius)))⌋)) ∧
    calculate_flux_at_instant_checked coil_theta magnet_path_radius
        magnet_radius rotation_speed t magnets =
      some (calculate_flux_at_instant coil_theta magnet_path_radius
        magnet_radius rotation_speed t magnets) := by
  have harg : magnet_radius * 2 / (2 * magnet_path_radius) =
      magnet_radius / magnet_path_radius := by
    rw [mul_comm magnet_radius 2]
    exact mul_div_mul_left _ _ two_ne_zero
  have harg0 : 0 < magnet_radius / magnet_path_radius := div_pos hr hR
  have harg1 : magnet_radius / magnet_path_radius ≤ 1 := (div_le_one hR).mpr hrR
  have hguard : (-1 : ℝ) ≤ magnet_radius * 2 / (2 * magnet_path_radius) ∧
      magnet_radius * 2 / (2 * magnet_path_radius) ≤ 1 := by
    rw [harg]
    exact ⟨by linarith, harg1⟩
  have hθpos : 0 < 2 * Real.arcsin (magnet_radius * 2 / (2 * magnet_path_radius)) := by
    rw [harg]
    have := Real.arcsin_pos.mpr harg0
    linarith
  have htr : pytrunc ((2 * π) / (2 * Real.arcsin (magnet_radius * 2 /
      (2 * magnet_path_radius)))) =
      ⌊(2 * π) / (2 * Real.arcsin (magnet_radius * 2 /
        (2 * magnet_path_radius)))⌋ :=
    pytrunc_eq_floor (le_of_lt (div_pos (by positivity) hθpos))
  have hred : check_valid_constants disk_radius magnet_radius offset_from_edge
      magnet_path_radius num_magnets =
      (if magnet_radius * 2 > disk_radius then some false
        else if magnet_radius * 2 + offset_from_edge > disk_radius then some false
        else if (num_magnets : ℤ) > ⌊(2 * π) / (2 * Real.arcsin (magnet_radius * 2 /
            (2 * magnet_path_radius)))⌋ then some false else some true) := by
    simp only [check_valid_constants]
    by_cases h1 : magnet_radius * 2 > disk_radius
    · rw [if_pos h1, if_pos h1]
    · rw [if_neg h1, if_neg h1]
      by_cases h2 : magnet_radius * 2 + offset_from_edge > disk_radius
      · rw [if_pos h2, if_pos h2]
      · rw [if_neg h2, if_neg h2, if_pos hguard, if_neg hθpos.ne', htr]
  refine ⟨?_, ?_, ?_⟩
  · rw [hred]
    split_ifs
    · exact ⟨false, rfl⟩
    · exact ⟨false, rfl⟩
    · exact ⟨false, rfl⟩
    · exact ⟨true, rfl⟩
  · rw [hred]
    split_ifs with ha hb hc
    · exact iff_of_true rfl (Or.inl ha)
    · exact iff_of_true rfl (Or.inr (Or.inl hb))
    · exact iff_of_true rfl (Or.inr (Or.inr hc))
    · refine iff_of_false (by simp) ?_
      rw [not_or, not_or]
      exact ⟨ha, hb, hc⟩
  · unfold calculate_flux_at_instant_checked calculate_flux_at_instant
    induction magnets with
    | nil => rfl
    | cons m rest ih =>
      rw [List.map_cons, List.mapM_cons,
        magnet_flux_term_checked_eq_some _ _ rotation_speed t hR.le hc0 hc2 m]
      rw [Option.map_eq_some'] at ih
      obtain ⟨sums, hsums, hval⟩ := ih
      rw [hsums]
      simp [hval]

/-- C8 witness: the validated demo configuration of generator.py
(disk 3.2, magnet radius 0.5, offset 0.2, path radius 2.5, 4 magnets)
satisfies the proviso; the validation returns normally iff no condition
holds, and one evaluation step at `t = 0` with one magnet is total. -/
theorem C8_witness :
    ((0 : ℝ) < 0.5 ∧ (0 : ℝ) < 2.5 ∧ (0.5 : ℝ) ≤ 2.5 ∧
      (0 : ℝ) ≤ π / 2 ∧ π / 2 ≤ 2 * π) ∧
      (∃ b : Bool, check_valid_constants 3.2 0.5 0.2 2.5 4 = some b) ∧
      (check_valid_constants 3.2 0.5 0.2 2.5 4 = some false ↔
        ((0.5 : ℝ) * 2 > 3.2 ∨ (0.5 : ℝ) * 2 + 0.2 > 3.2 ∨
          ((4 : ℕ) : ℤ) >
            ⌊(2 * π) / (2 * Real.arcsin ((0.5 : ℝ) * 2 / (2 * 2.5)))⌋)) ∧
      calculate_flux_at_instant_checked (π / 2) 2.5 0.5 1 0 [(0, true)] =
        some (calculate_flux_at_instant (π / 2) 2.5 0.5 1 0 [(0, true)]) := by
  have hhyp : (0 : ℝ) < 0.5 ∧ (0 : ℝ) < 2.5 ∧ (0.5 : ℝ) ≤ 2.5 ∧
      (0 : ℝ) ≤ π / 2 ∧ π / 2 ≤ 2 * π := by
    refine ⟨by norm_num, by norm_num, by norm_num, by positivity,
      by linarith [Real.pi_pos]⟩
  obtain ⟨hex, hiff, htot⟩ := C8_validation_and_totality 3.2 0.5 0.2 2.5 4
    (π / 2) 1 0 [(0, true)] hhyp.1 hhyp.2.1 hhyp.2.2.1 hhyp.2.2.2.1 hhyp.2.2.2.2
  exact ⟨hhyp, hex, hiff, htot⟩

noncomputable section

namespace MagneticPhysics

/-- 3-vectors, the embedding of the numpy length-3 arrays used by
`MagneticPhysics` (src/video_production/video_1/rotating_hoop.py and the
identical copy in orbiting_hoop.py). -/
def Vec3 : Type := ℝ × ℝ × ℝ

def vadd (a b : Vec3) : Vec3 := (a.1 + b.1, a.2.1 + b.2.1, a.2.2 + b.2.2)

def vsub (a b : Vec3) : Vec3 := (a.1 - b.1, a.2.1 - b.2.1, a.2.2 - b.2.2)

def smul (c : ℝ) (a : Vec3) : Vec3 := (c * a.1, c * a.2.1, c * a.2.2)

def vdot (a b : Vec3) : ℝ := a.1 * b.1 + a.2.1 * b.2.1 + a.2.2 * b.2.2

def vnorm (a : Vec3) : ℝ := Real.sqrt (vdot a a)

def vcross (a b : Vec3) : Vec3 :=
  (a.2.1 * b.2.2 - a.2.2 * b.2.1,
   a.2.2 * b.1 - a.1 * b.2.2,
   a.1 * b.2.1 - a.2.1 * b.1)

/-- Dipole field with singularity avoidance, as in
`MagneticPhysics.get_b_field` (rotating_hoop.py lines 19–35): zero inside
radius `0.1`, otherwise `(3(m·r̂)r̂ − m)/r³`. -/
def get_b_field (moment point : Vec3) : Vec3 :=
  let r := vnorm point
  if r < 0.1 then ((0 : ℝ), (0 : ℝ), (0 : ℝ))
  else
    let r_hat := smul (1 / r) point
    let m_dot_r := vdot moment r_hat
    smul (1 / r ^ 3) (vsub (smul (3 * m_dot_r) r_hat) moment)

/-- The in-plane basis vector `t1` of `MagneticPhysics.calculate_flux`
(rotating_hoop.py lines 45–55): `[1,0,0]` when `np.allclose(|normal|,
[0,0,1], atol=1e-2)` (with numpy's default `rtol=1e-5` on the third
component), else the normalized cross product with `ẑ`, falling back to `ŷ`
when that cross product is shorter than `1e-6`. -/
def tangent1 (coil_normal : Vec3) : Vec3 :=
  if |coil_normal.1| ≤ 0.01 ∧ |coil_normal.2.1| ≤ 0.01 ∧
      |(|coil_normal.2.2|) - 1| ≤ 0.01 + 0.00001 then
    ((1 : ℝ), (0 : ℝ), (0 : ℝ))
  else
    let t1 := vcross coil_normal ((0 : ℝ), (0 : ℝ), (1 : ℝ))
    let t1' := if vnorm t1 < 0.000001 then
        vcross coil_normal ((0 : ℝ), (1 : ℝ), (0 : ℝ))
      else t1
    smul (1 / vnorm t1') t1'

/-- The polar sample grid of `MagneticPhysics.calculate_flux`
(rotating_hoop.py lines 60–78): the coil center plus, for each of the 5
radial fractions `np.linspace(0.2, 0.9, 5)`, 8 equally spaced angular
samples on the ring of radius `radius * r_frac`. -/
def sample_points (coil_center coil_normal : Vec3) (radius : ℝ) : List Vec3 :=
  let t1 := tangent1 coil_normal
  let t2 := vcross coil_normal t1
  coil_center ::
    (([0.2, 0.375, 0.55, 0.725, 0.9] : List ℝ).map (fun r_frac =>
      (List.range 8).map (fun theta_idx =>
        let theta := ((theta_idx : ℝ) / 8) * (2 * π)
        let curr_r := radius * r_frac
        vadd coil_center (vadd (smul (curr_r * Real.cos theta) t1)
          (smul (curr_r * Real.sin theta) t2))))).flatten

/-- Disc-flux quadrature, as in `MagneticPhysics.calculate_flux`
(rotating_hoop.py lines 37–88 and the identical copy in orbiting_hoop.py):
average `B·n̂` over the fixed 41-point polar grid and multiply by the disc
area `πr²`.  The `grid_res` parameter is accepted, as in the source, where
it likewise appears only in the signature (default 10). -/
def calculate_flux (moment coil_center coil_normal : Vec3) (radius : ℝ)
    (grid_res : ℕ) : ℝ :=
  let samples := sample_points coil_center coil_normal radius
  let total_b_dot_n :=
    (samples.map (fun pt => vdot (get_b_field moment pt) coil_normal)).sum
  let avg_b_dot_n := total_b_dot_n / (samples.length : ℝ)
  avg_b_dot_n * (π * radius ^ 2)

end MagneticPhysics

end

/-- C10: `MagneticPhysics.calculate_flux` ignores its `grid_res` argument —
any two resolutions give identical results for every dipole moment, coil
center, coil normal and radius, because the quadrature grid is fixed
internally at 1 center point plus 5 rings of 8 samples, 41 points total. -/
theorem C10_calculate_flux_ignores_grid_res
    (moment coil_center coil_normal : MagneticPhysics.Vec3) (radius : ℝ)
    (g1 g2 : ℕ) :
    MagneticPhysics.calculate_flux moment coil_center coil_normal radius g1 =
      MagneticPhysics.calculate_flux moment coil_center coil_normal radius g2 ∧
    (MagneticPhysics.sample_points coil_center coil_normal radius).length = 41 :=
  ⟨rfl, rfl⟩

/-- C9: two magnets at the same angle with the same radius and opposite
polarity contribute a net `0` to the aggregated signed flux sum, at every
time `t` and for every coil angle: prepending such a pair leaves the total
unchanged. -/
theorem C9_opposite_polarity_cancels
    (coil_theta R r rotation_speed t theta : ℝ) (rest : List (ℝ × Bool)) :
    calculate_flux_at_instant coil_theta R r rotation_speed t
        ((theta, true) :: (theta, false) :: rest) =
      calculate_flux_at_instant coil_theta R r rotation_speed t rest := by
  unfold calculate_flux_at_instant
  simp only [List.map_cons, List.sum_cons, magnet_flux_term]
  simp

